import Mathlib

/-!
Verification development for the cora-archieve txtai ingestion/search service
(`src/web/txtai/app.py`, with an identical segmenter copy in
`src/txtai/app_simple.py`).

The Python service is shallowly embedded here:
* strings are `List Char` (`Str`), matching Python `str` length/indexing on
  code points;
* the module-level mutable globals (`documents_store`, `_embeddings_indexed`,
  the committed contents of the `embeddings` index) are gathered in an
  explicit `ServerState` record that every endpoint threads;
* the two external vector-index primitives (`embeddings.search` read-back and
  `embeddings.index` commit) are modelled by their observable behaviour: the
  committed generation is the `contents` field, a read-back returns the
  committed contents (filtered, truncated to the SQL `limit` of 10000) when it
  succeeds, and the success of read-back/commit during one request is an
  explicit boolean input (`readbackOk` / `commitOk`); a failed commit leaves
  the committed generation unchanged;
* `hashlib.md5(...).hexdigest()` is an external pure digest; it is modelled as
  an explicit function parameter `hashFn : Str → Str` so that theorems
  quantify over the digest and witnesses may instantiate it concretely;
* Python whitespace (`\s` in the `re.split` pattern, and `str.strip`) is
  modelled on the six ASCII whitespace characters;
* request `metadata` dicts are association lists of string scalars; the
  `**request.metadata` merge into a chunk dict is modelled as the chunk's
  `extra` field (the spec declares collision with the five reserved keys
  undefined behaviour, so the model keeps them separate);
* search scores (Python floats, used only through an order comparison) are
  modelled as rationals.
-/

set_option autoImplicit false

abbrev Str := List Char

/-- ASCII whitespace, the characters matched by the `\s` of
`re.split(r'(?<=[.!?])\s+', text)` and removed by `str.strip()` on ASCII
text. -/
def isSpaceCh (c : Char) : Bool :=
  c = ' ' || c = '\t' || c = '\n' || c = '\r' || c = '\x0b' || c = '\x0c'

/-- Sentence-terminal punctuation of the split pattern `(?<=[.!?])`. -/
def isSentEnd (c : Char) : Bool :=
  c = '.' || c = '!' || c = '?'

/-- True when the list starts with a whitespace character. -/
def headIsSpace : Str → Bool
  | [] => false
  | c :: _ => isSpaceCh c

/-- Python `str.strip()` on the left: drop leading whitespace. -/
def ltrim (l : Str) : Str := l.dropWhile isSpaceCh

/-- Python `str.strip()` on the right: drop trailing whitespace. -/
def rtrim (l : Str) : Str := (l.reverse.dropWhile isSpaceCh).reverse

/-- Python `str.strip()`: drop whitespace at both ends. -/
def strip (l : Str) : Str := ltrim (rtrim l)

/-- One pass of `re.split(r'(?<=[.!?])\s+', text)`.  `acc` holds the current
piece reversed; `inSep` is true while consuming the greedy `\s+` separator run
(during which `acc` is empty).  A split point is a maximal whitespace run
immediately preceded by one of `.!?`; the punctuation stays with the piece
before the split and the whitespace is consumed. -/
def splitGo : Str → Str → Bool → List Str
  | [], acc, _ => [acc.reverse]
  | c :: rest, acc, inSep =>
    if inSep && isSpaceCh c then splitGo rest acc true
    else if isSentEnd c && headIsSpace rest then
      (acc.reverse ++ [c]) :: splitGo rest [] true
    else splitGo rest (c :: acc) false

/-- `re.split(r'(?<=[.!?])\s+', text)` from `simple_segment`. -/
def splitSentences (text : Str) : List Str := splitGo text [] false

/-- The accumulation loop of `simple_segment`: `chunks` are the completed
chunks so far, `cur` is `current_chunk`.  Mirrors

    for sentence in sentences:
        if len(current_chunk) + len(sentence) < max_length:
            current_chunk += sentence + " "
        else:
            if current_chunk:
                chunks.append(current_chunk.strip())
            current_chunk = sentence + " "
    if current_chunk:
        chunks.append(current_chunk.strip())
-/
def segLoop (maxLen : Nat) : List Str → List Str → Str → List Str
  | [], chunks, cur => if cur = [] then chunks else chunks ++ [strip cur]
  | s :: rest, chunks, cur =>
    if cur.length + s.length < maxLen then
      segLoop maxLen rest chunks (cur ++ s ++ [' '])
    else
      segLoop maxLen rest (if cur = [] then chunks else chunks ++ [strip cur])
        (s ++ [' '])

/-- `simple_segment(text, max_length)` from `src/web/txtai/app.py`
(identical in `src/txtai/app_simple.py`): split into sentences, greedily
accumulate them into chunks, and fall back to `[text]` if no chunk was
produced. -/
def simple_segment (text : Str) (max_length : Nat) : List Str :=
  let sentences := splitSentences text
  let chunks := segLoop max_length sentences [] []
  if chunks = [] then [text] else chunks

/-! ## Decimal rendering of chunk indices

Python renders the chunk index with `f"{doc_id}_{i}"`.  `natDigits` is a
fuel-based (hence kernel-reducible) decimal rendering; `valOfDigits` reads it
back, which yields injectivity. -/

/-- Big-endian decimal digits of a positive number; `fuel` bounds the
recursion depth and is sufficient whenever `n ≤ fuel`. -/
def natDigitsAux : Nat → Nat → Str
  | 0, _ => []
  | _ + 1, 0 => []
  | fuel + 1, n + 1 =>
    natDigitsAux fuel ((n + 1) / 10) ++ [Nat.digitChar ((n + 1) % 10)]

/-- Decimal rendering of a natural number, as produced by Python string
interpolation of a non-negative int. -/
def natDigits (n : Nat) : Str :=
  if n = 0 then ['0'] else natDigitsAux n n

/-- Decimal value of a digit string (inverse of `natDigits`). -/
def valOfDigits (l : Str) : Nat :=
  l.foldl (fun acc c => acc * 10 + (c.toNat - 48)) 0

/-! ## Data model

The module-level globals of `app.py`, its pydantic request/response models,
and the dict shapes it builds. -/

/-- A value stored in `documents_store`:
`{"title": ..., "chunks": len(chunks), "metadata": ...}`. -/
structure DocMeta where
  title : Str
  chunks : Nat
  metadata : List (Str × Str)
deriving DecidableEq, Repr

/-- One chunk dict handed to `embeddings.index`:
`{"id": f"{doc_id}_{i}", "text": chunk, "doc_id": doc_id, "title": ...,
"chunk_index": i, **request.metadata}`.  The merged metadata keys are kept in
`extra` (the spec declares collision with the five reserved keys undefined). -/
structure IndexedDoc where
  id : Str
  text : Str
  doc_id : Str
  title : Str
  chunk_index : Nat
  extra : List (Str × Str)
deriving DecidableEq, Repr

/-- The service's mutable globals: `documents_store` (a Python dict, i.e. an
insertion-ordered association list with unique keys), the flag
`_embeddings_indexed`, and the last committed contents of the `embeddings`
index. -/
structure ServerState where
  store : List (Str × DocMeta)
  indexed : Bool
  contents : List IndexedDoc
deriving DecidableEq, Repr

/-- `documents_store[doc_id] = v`: overwrite in place, or append at the end
(Python dicts keep insertion order and keep the position on overwrite). -/
def putStore : List (Str × DocMeta) → Str → DocMeta → List (Str × DocMeta)
  | [], k, v => [(k, v)]
  | (k0, v0) :: rest, k, v =>
    if k0 = k then (k0, v) :: rest else (k0, v0) :: putStore rest k v

/-- `documents_store.get(doc_id)` / `doc_id in documents_store`. -/
def lookupStore : List (Str × DocMeta) → Str → Option DocMeta
  | [], _ => none
  | (k0, v0) :: rest, k => if k0 = k then some v0 else lookupStore rest k

/-- `del documents_store[doc_id]`. -/
def eraseStore : List (Str × DocMeta) → Str → List (Str × DocMeta)
  | [], _ => []
  | (k0, v0) :: rest, k =>
    if k0 = k then rest else (k0, v0) :: eraseStore rest k

/-- `POST /process/text` request body. -/
structure DocumentRequest where
  content : Str
  title : Str
  metadata : List (Str × Str)
deriving DecidableEq, Repr

/-- `ProcessResponse`: `{doc_id, chunks, title, status="success"}`. -/
structure ProcessResponse where
  doc_id : Str
  chunks : Nat
  title : Str
  status : Str
deriving DecidableEq, Repr

/-- Outcome of an endpoint call: either a payload or an
`HTTPException(status_code, detail)` raised to the framework. -/
inductive ProcessResult where
  | ok (resp : ProcessResponse)
  | err (status : Nat) (detail : Str)
deriving DecidableEq, Repr

/-- The `documents` list built by the `for i, chunk in enumerate(chunks)`
loop of `process_text`, starting at index `i`. -/
def mkDocs (docId : Str) (title : Str) (extra : List (Str × Str)) :
    Nat → List Str → List IndexedDoc
  | _, [] => []
  | i, c :: rest =>
    ⟨docId ++ '_' :: natDigits i, c, docId, title, i, extra⟩ ::
      mkDocs docId title extra (i + 1) rest

/-- The full `documents` list of one `process_text` request: the segmenter's
chunks of the request content, wrapped by the `enumerate` loop. -/
def docsOf (hashFn : Str → Str) (req : DocumentRequest) : List IndexedDoc :=
  mkDocs (hashFn req.content) req.title req.metadata 0
    (simple_segment req.content 500)

/-- `POST /process/text` (`process_text` in `app.py`).

`hashFn` models `hashlib.md5(content).hexdigest()`; `readbackOk` models
whether `embeddings.search("SELECT * FROM sections", limit=10000)` succeeds;
`commitOk` models whether `embeddings.index(...)` calls succeed during this
request (a failed commit leaves the committed generation unchanged, and the
raised exception is converted to a 500 by the endpoint's `except` clause; the
500's detail is `str(e)` of the opaque external exception, modelled by a
fixed placeholder string).  A
successful read-back returns the committed contents truncated to the SQL
limit of 10000.  On the append path with a failing index, the combined commit
raises inside the inner `try`, the fallback `embeddings.index(documents)`
raises as well, and the outer handler returns the 500; the line
`_embeddings_indexed = True` of the fallback is then never reached. -/
def process_text (hashFn : Str → Str) (st : ServerState)
    (req : DocumentRequest) (readbackOk commitOk : Bool) :
    ServerState × ProcessResult :=
  let doc_id := hashFn req.content
  let chunks := simple_segment req.content 500
  let documents := docsOf hashFn req
  let store1 := putStore st.store doc_id ⟨req.title, chunks.length, req.metadata⟩
  let okResp : ProcessResult :=
    .ok ⟨doc_id, chunks.length, req.title, "success".toList⟩
  if st.indexed = false then
    if commitOk then (⟨store1, true, documents⟩, okResp)
    else (⟨store1, false, st.contents⟩, .err 500 "index commit failed".toList)
  else
    if readbackOk then
      if commitOk then
        (⟨store1, true, st.contents.take 10000 ++ documents⟩, okResp)
      else (⟨store1, true, st.contents⟩, .err 500 "index commit failed".toList)
    else
      if commitOk then (⟨store1, true, documents⟩, okResp)
      else (⟨store1, true, st.contents⟩, .err 500 "index commit failed".toList)

/-- Outcome of `DELETE /documents/{doc_id}`: the success payload
`{"message": "Document deleted", "doc_id": doc_id}` or a raised
`HTTPException`. -/
inductive DeleteResult where
  | deleted (docId : Str)
  | err (status : Nat) (detail : Str)
deriving DecidableEq, Repr

/-- `DELETE /documents/{doc_id}` (`delete_document` in `app.py`).

Note the absent-id path: the handler raises `HTTPException(404, "Document not
found")` inside its own `try`, the blanket `except Exception` catches it and
re-raises `HTTPException(500, str(e))`, so the caller observes a 500 (the
`str` of a starlette `HTTPException` is `"{status_code}: {detail}"`).  On the
present-id path the registry entry is deleted first; then, when the state is
indexed, the filtered read-back `embeddings.search("SELECT * FROM sections
WHERE doc_id != '...'", limit=10000)` and re-commit run inside an inner
`try` whose handler only sets `_embeddings_indexed = False`. -/
def delete_document (st : ServerState) (docId : Str)
    (readbackOk commitOk : Bool) : ServerState × DeleteResult :=
  match lookupStore st.store docId with
  | none => (st, .err 500 "404: Document not found".toList)
  | some _ =>
    let store1 := eraseStore st.store docId
    if st.indexed then
      if readbackOk then
        if commitOk then
          (⟨store1, true,
            (st.contents.filter (fun d => !decide (d.doc_id = docId))).take 10000⟩,
            .deleted docId)
        else (⟨store1, false, st.contents⟩, .deleted docId)
      else (⟨store1, false, st.contents⟩, .deleted docId)
    else (⟨store1, st.indexed, st.contents⟩, .deleted docId)

/-! ## Search -/

/-- A raw hit returned by `embeddings.search(query, limit)`.  The score is
always present (`result["score"]` is indexed directly); the other fields are
read with `result.get(...)` and are modelled as optional. -/
structure RawResult where
  score : ℚ
  id : Option Str
  text : Option Str
  doc_id : Option Str
  title : Option Str
  chunk_index : Option Nat
deriving DecidableEq, Repr

/-- One element of the `formatted_results` list. -/
structure FormattedResult where
  text : Str
  score : ℚ
  doc_id : Str
  title : Str
  chunk_index : Nat
deriving DecidableEq, Repr

/-- Python substring containment `a in b` for strings. -/
def containsSub (a b : Str) : Bool :=
  (List.range (b.length + 1)).any (fun i => (b.drop i).take a.length = a)

/-- The `doc_id` resolution of `search`: take `result.get("doc_id", "")`;
if it is empty and the result has a `text` key, scan `documents_store` in
insertion order for the first stored id contained in `result.get("id", "")`. -/
def resolveDocId (store : List (Str × DocMeta)) (r : RawResult) : Str :=
  let d0 := r.doc_id.getD []
  if d0 = [] && r.text.isSome then
    match store.find? (fun p => containsSub p.1 (r.id.getD [])) with
    | some p => p.1
    | none => d0
  else d0

/-- The `title` resolution of `search`: `result.get("title", "")`, falling
back to the stored title when empty and the resolved `doc_id` is a non-empty
key of `documents_store`. -/
def resolveTitle (store : List (Str × DocMeta)) (r : RawResult)
    (docId : Str) : Str :=
  let t0 := r.title.getD []
  if t0 = [] && !decide (docId = []) then
    match lookupStore store docId with
    | some m => m.title
    | none => t0
  else t0

/-- The dict appended to `formatted_results` for one surviving raw result. -/
def formatResult (store : List (Str × DocMeta)) (r : RawResult) :
    FormattedResult :=
  let d := resolveDocId store r
  ⟨r.text.getD [], r.score, d, resolveTitle store r d, r.chunk_index.getD 0⟩

/-- The `for result in results` loop of `search`: keep a result iff
`result["score"] >= request.threshold`, formatting the survivors in order. -/
def searchLoop (store : List (Str × DocMeta)) (threshold : ℚ) :
    List RawResult → List FormattedResult
  | [] => []
  | r :: rest =>
    if threshold ≤ r.score then
      formatResult store r :: searchLoop store threshold rest
    else searchLoop store threshold rest

/-- `POST /search` request body. -/
structure SearchRequest where
  query : Str
  limit : Nat
  threshold : ℚ
deriving DecidableEq, Repr

/-- Response of `POST /search`: either the early
`{"results": [], "message": "No documents indexed"}` or
`{"results": formatted_results, "query": ...}`. -/
inductive SearchResult where
  | empty_msg
  | ok (results : List FormattedResult) (query : Str)
deriving DecidableEq, Repr

/-- The `results` list of either response shape. -/
def SearchResult.resultsOf : SearchResult → List FormattedResult
  | .empty_msg => []
  | .ok rs _ => rs

/-- `POST /search` (`search` in `app.py`).  `raw` is the value returned by
the external call `embeddings.search(request.query, limit=request.limit)`;
when `_embeddings_indexed` is false that call is never made and the early
empty response is returned. -/
def search_endpoint (st : ServerState) (req : SearchRequest)
    (raw : List RawResult) : SearchResult :=
  if st.indexed = false then .empty_msg
  else .ok (searchLoop st.store req.threshold raw) req.query

/-! ## Spec-side segmenter

A second segmenter written from the words of the specification, to be
compared with `simple_segment` (the one embedded from the source): the buffer
is the list of accumulated sentences, "the buffer length" is the length of
the sentences joined by single spaces, and a flush happens exactly when
appending the next sentence would make that length reach or exceed
`maxLength`; flushed buffers are emitted trimmed; after all sentences are
consumed a non-empty buffer is flushed. -/

/-- Sentences joined by single spaces (the reading of "the buffer" in the
spec's greedy-accumulation paragraph). -/
def joinSp : List Str → Str
  | [] => []
  | [s] => s
  | s :: rest => s ++ ' ' :: joinSp rest

/-- Greedy accumulation exactly as the spec words it. -/
def specLoop (maxLen : Nat) : List Str → List Str → List Str → List Str
  | [], chunks, buf =>
    if buf = [] then chunks else chunks ++ [strip (joinSp buf)]
  | s :: rest, chunks, buf =>
    if maxLen ≤ (joinSp (buf ++ [s])).length then
      specLoop maxLen rest
        (if buf = [] then chunks else chunks ++ [strip (joinSp buf)]) [s]
    else specLoop maxLen rest chunks (buf ++ [s])

/-- The segmentation algorithm as described by the specification. -/
def segment_spec (text : Str) (maxLen : Nat) : List Str :=
  specLoop maxLen (splitSentences text) [] []

/-- The code's string buffer corresponding to a spec-side sentence buffer:
each accumulated sentence followed by the separator space the code appends. -/
def bufStr (buf : List Str) : Str := (buf.map (fun s => s ++ [' '])).flatten

/-! ## Concrete sample values used by witnesses and counterexamples -/

/-- A stand-in for the md5 digest in concrete scenarios (the digest is an
opaque external pure function; theorems quantify over it). -/
def idHash : Str → Str := fun c => c

def sampleMeta : DocMeta := ⟨"Old".toList, 1, []⟩

def sampleDoc : IndexedDoc :=
  ⟨"old_0".toList, "x y.".toList, "old".toList, "Old".toList, 0, []⟩

/-- A server state with one registered and committed document. -/
def sampleSt : ServerState := ⟨[("old".toList, sampleMeta)], true, [sampleDoc]⟩

def sampleReq : DocumentRequest := ⟨"Hi there. Bye.".toList, "T".toList, []⟩

/-- Request whose content is the single word `a` (one chunk). -/
def reqA : DocumentRequest := ⟨"a".toList, "T".toList, []⟩

/-- State after ingesting `reqA` once into an empty, not-indexed service. -/
def stA : ServerState := (process_text idHash ⟨[], false, []⟩ reqA true true).1

/-- State after ingesting the identical content a second time (append path,
read-back and commit both succeed). -/
def stAA : ServerState := (process_text idHash stA reqA true true).1

/-- An indexed state with an empty registry, for search scenarios. -/
def idxSt : ServerState := ⟨[], true, []⟩

def rawNeg : List RawResult := [⟨-1, none, some "t".toList, none, none, none⟩]

def rawPos : List RawResult := [⟨(1 : ℚ) / 2, none, some "t".toList, none, none, none⟩]

/-! ## Lemmas about decimal rendering -/

theorem valOfDigits_append (l : Str) (c : Char) :
    valOfDigits (l ++ [c]) = valOfDigits l * 10 + (c.toNat - 48) := by
  simp [valOfDigits, List.foldl_append]

theorem digitChar_toNat (d : Nat) (h : d < 10) :
    (Nat.digitChar d).toNat - 48 = d := by
  interval_cases d <;> decide

theorem valOfDigits_natDigitsAux (fuel n : Nat) (h : n ≤ fuel) :
    valOfDigits (natDigitsAux fuel n) = n := by
  induction fuel generalizing n with
  | zero => interval_cases n; simp [natDigitsAux, valOfDigits]
  | succ fuel ih =>
    match n with
    | 0 => simp [natDigitsAux, valOfDigits]
    | n + 1 =>
      rw [natDigitsAux, valOfDigits_append,
        ih ((n + 1) / 10) (by omega),
        digitChar_toNat _ (Nat.mod_lt _ (by norm_num))]
      omega

theorem valOfDigits_natDigits (n : Nat) : valOfDigits (natDigits n) = n := by
  unfold natDigits
  by_cases h : n = 0
  · simp [h, valOfDigits]
  · rw [if_neg h, valOfDigits_natDigitsAux n n le_rfl]

theorem natDigits_injective : Function.Injective natDigits := by
  intro a b h
  have ha := valOfDigits_natDigits a
  have hb := valOfDigits_natDigits b
  rw [h, hb] at ha
  omega

theorem bufStr_nil : bufStr [] = [] := rfl

theorem bufStr_push (buf : List Str) (s : Str) :
    bufStr (buf ++ [s]) = bufStr buf ++ (s ++ [' ']) := by
  simp [bufStr]

theorem bufStr_single (s : Str) : bufStr [s] = s ++ [' '] := by
  simp [bufStr]

theorem bufStr_eq_nil_iff (buf : List Str) : bufStr buf = [] ↔ buf = [] := by
  cases buf with
  | nil => simp [bufStr]
  | cons b bs => simp [bufStr]

theorem joinSp_cons (s : Str) (l : List Str) (h : l ≠ []) :
    joinSp (s :: l) = s ++ ' ' :: joinSp l := by
  cases l with
  | nil => exact absurd rfl h
  | cons a as => rfl

theorem bufStr_eq_joinSp (buf : List Str) (h : buf ≠ []) :
    bufStr buf = joinSp buf ++ [' '] := by
  induction buf with
  | nil => exact absurd rfl h
  | cons b bs ih =>
    cases bs with
    | nil => simp [bufStr, joinSp]
    | cons c cs =>
      rw [joinSp_cons b (c :: cs) (by simp)]
      have : bufStr (b :: c :: cs) = (b ++ [' ']) ++ bufStr (c :: cs) := by
        simp [bufStr]
      rw [this, ih (by simp)]
      simp

theorem joinSp_push (buf : List Str) (s : Str) (h : buf ≠ []) :
    joinSp (buf ++ [s]) = joinSp buf ++ ' ' :: s := by
  induction buf with
  | nil => exact absurd rfl h
  | cons b bs ih =>
    cases bs with
    | nil => simp [joinSp]
    | cons c cs =>
      rw [List.cons_append, joinSp_cons b ((c :: cs) ++ [s]) (by simp),
        joinSp_cons b (c :: cs) (by simp), ih (by simp)]
      simp

theorem length_bufStr_add (buf : List Str) (s : Str) :
    (bufStr buf).length + s.length = (joinSp (buf ++ [s])).length := by
  by_cases h : buf = []
  · subst h; simp [bufStr, joinSp]
  · rw [bufStr_eq_joinSp buf h, joinSp_push buf s h]
    simp
    omega

theorem isSpaceCh_space : isSpaceCh ' ' = true := rfl

theorem rtrim_append_space (l : Str) : rtrim (l ++ [' ']) = rtrim l := by
  simp [rtrim, List.dropWhile_cons, isSpaceCh_space]

theorem strip_append_space (l : Str) : strip (l ++ [' ']) = strip l := by
  simp [strip, rtrim_append_space]

theorem segLoop_eq_specLoop (maxLen : Nat) :
    ∀ (sents chunks : List Str) (buf : List Str),
      segLoop maxLen sents chunks (bufStr buf) = specLoop maxLen sents chunks buf := by
  intro sents
  induction sents with
  | nil =>
    intro chunks buf
    by_cases h : buf = []
    · subst h; simp [segLoop, specLoop, bufStr]
    · have hb : bufStr buf ≠ [] := by
        simpa [bufStr_eq_nil_iff] using h
      simp only [segLoop, specLoop, if_neg h, if_neg hb]
      rw [bufStr_eq_joinSp buf h, strip_append_space]
  | cons s rest ih =>
    intro chunks buf
    have hlen := length_bufStr_add buf s
    by_cases hcond : maxLen ≤ (joinSp (buf ++ [s])).length
    · have hnot : ¬ ((bufStr buf).length + s.length < maxLen) := by omega
      simp only [segLoop, specLoop, if_neg hnot, if_pos hcond]
      have harg :
          (if bufStr buf = [] then chunks else chunks ++ [strip (bufStr buf)]) =
          (if buf = [] then chunks else chunks ++ [strip (joinSp buf)]) := by
        by_cases h : buf = []
        · subst h; simp [bufStr]
        · have hb : bufStr buf ≠ [] := by
            simpa [bufStr_eq_nil_iff] using h
          rw [if_neg h, if_neg hb, bufStr_eq_joinSp buf h, strip_append_space]
      rw [harg, ← bufStr_single s]
      exact ih _ [s]
    · have hlt : (bufStr buf).length + s.length < maxLen := by omega
      simp only [segLoop, specLoop, if_pos hlt, if_neg hcond]
      have : bufStr buf ++ s ++ [' '] = bufStr (buf ++ [s]) := by
        rw [bufStr_push]; simp
      rw [this]
      exact ih chunks (buf ++ [s])

theorem splitGo_ne_nil : ∀ (chars acc : Str) (inSep : Bool),
    splitGo chars acc inSep ≠ [] := by
  intro chars
  induction chars with
  | nil => intro acc inSep; simp [splitGo]
  | cons c rest ih =>
    intro acc inSep
    rw [splitGo]
    by_cases h1 : (inSep && isSpaceCh c) = true
    · simpa [h1] using ih acc true
    · by_cases h2 : (isSentEnd c && headIsSpace rest) = true
      · simp [h1, h2]
      · simpa [h1, h2] using ih (c :: acc) false

theorem segLoop_ne_nil (maxLen : Nat) :
    ∀ (sents chunks : List Str) (cur : Str),
      sents ≠ [] ∨ cur ≠ [] → segLoop maxLen sents chunks cur ≠ [] := by
  intro sents
  induction sents with
  | nil =>
    intro chunks cur h
    have hc : cur ≠ [] := h.resolve_left (fun hh => hh rfl)
    simp [segLoop, hc]
  | cons s rest ih =>
    intro chunks cur _
    rw [segLoop]
    by_cases hlt : cur.length + s.length < maxLen
    · simpa [hlt] using ih _ (cur ++ s ++ [' ']) (Or.inr (by simp))
    · simpa [hlt] using ih _ (s ++ [' ']) (Or.inr (by simp))

theorem simple_segment_eq_segment_spec (text : Str) (maxLen : Nat) :
    simple_segment text maxLen = segment_spec text maxLen := by
  unfold simple_segment segment_spec
  have hne : segLoop maxLen (splitSentences text) [] [] ≠ [] :=
    segLoop_ne_nil maxLen _ [] [] (Or.inl (splitGo_ne_nil text [] false))
  simp only [if_neg hne]
  have := segLoop_eq_specLoop maxLen (splitSentences text) [] []
  simpa [bufStr] using this

theorem segLoop_mem_chunks (maxLen : Nat) :
    ∀ (sents chunks : List Str) (cur ch : Str),
      ch ∈ chunks → ch ∈ segLoop maxLen sents chunks cur := by
  intro sents
  induction sents with
  | nil =>
    intro chunks cur ch h
    by_cases hc : cur = [] <;> simp [segLoop, hc, h]
  | cons s rest ih =>
    intro chunks cur ch h
    rw [segLoop]
    by_cases hlt : cur.length + s.length < maxLen
    · rw [if_pos hlt]; exact ih _ _ _ h
    · rw [if_neg hlt]
      refine ih _ _ _ ?_
      by_cases hc : cur = [] <;> simp [hc, h]

theorem segLoop_mem_of_long (maxLen : Nat) :
    ∀ (sents chunks : List Str) (cur : Str),
      maxLen < cur.length → strip cur ∈ segLoop maxLen sents chunks cur := by
  intro sents
  induction sents with
  | nil =>
    intro chunks cur h
    have hc : cur ≠ [] := by
      intro hh; subst hh; simp at h
    simp [segLoop, hc]
  | cons s rest ih =>
    intro chunks cur h
    have hnot : ¬ (cur.length + s.length < maxLen) := by omega
    have hc : cur ≠ [] := by
      intro hh; subst hh; simp at h
    rw [segLoop, if_neg hnot, if_neg hc]
    exact segLoop_mem_chunks maxLen rest _ _ _ (by simp)

theorem segLoop_mem_long_sentence (maxLen : Nat) :
    ∀ (sents chunks : List Str) (cur s : Str),
      s ∈ sents → maxLen < s.length →
      strip s ∈ segLoop maxLen sents chunks cur := by
  intro sents
  induction sents with
  | nil => intro _ _ _ h; simp at h
  | cons t rest ih =>
    intro chunks cur s hmem hlong
    rcases List.mem_cons.mp hmem with heq | htail
    · subst heq
      have hnot : ¬ (cur.length + s.length < maxLen) := by omega
      rw [segLoop, if_neg hnot]
      have hlen : maxLen < (s ++ [' ']).length := by simp; omega
      have hm := segLoop_mem_of_long maxLen rest
        (if cur = [] then chunks else chunks ++ [strip cur]) (s ++ [' ']) hlen
      rwa [strip_append_space] at hm
    · rw [segLoop]
      by_cases hlt : cur.length + s.length < maxLen
      · by_cases hlt2 : cur.length + t.length < maxLen
        · simpa [hlt2] using ih _ _ s htail hlong
        · simpa [hlt2] using ih _ _ s htail hlong
      · by_cases hlt2 : cur.length + t.length < maxLen
        · simpa [hlt2] using ih _ _ s htail hlong
        · simpa [hlt2] using ih _ _ s htail hlong

/-! ## Non-whitespace content of segmenter output -/

theorem mem_dropWhile_of_nonspace {l : Str} {c : Char}
    (hc : isSpaceCh c = false) (hm : c ∈ l) :
    c ∈ l.dropWhile isSpaceCh := by
  induction l with
  | nil => simp at hm
  | cons a as ih =>
    rw [List.dropWhile_cons]
    by_cases ha : isSpaceCh a = true
    · have hne : c ≠ a := by
        intro h; subst h; rw [hc] at ha; simp at ha
      have : c ∈ as := by
        rcases List.mem_cons.mp hm with h | h
        · exact absurd h hne
        · exact h
      simp [ha, ih this]
    · simp [ha, hm]

theorem mem_strip_of_nonspace {l : Str} {c : Char}
    (hc : isSpaceCh c = false) (hm : c ∈ l) : c ∈ strip l := by
  have h1 : c ∈ rtrim l := by
    unfold rtrim
    rw [List.mem_reverse]
    exact mem_dropWhile_of_nonspace hc (List.mem_reverse.mpr hm)
  exact mem_dropWhile_of_nonspace hc h1

theorem isSentEnd_nonspace {c : Char} (h : isSentEnd c = true) :
    isSpaceCh c = false := by
  rcases Bool.or_eq_true_iff.mp h with h1 | h2
  · rcases Bool.or_eq_true_iff.mp h1 with h3 | h4
    · rw [decide_eq_true_eq.mp h3]; rfl
    · rw [decide_eq_true_eq.mp h4]; rfl
  · rw [decide_eq_true_eq.mp h2]; rfl

theorem getLast?_of_suffix {l t : Str} (h : l <:+ t) (hne : l ≠ []) :
    t.getLast? = l.getLast? := by
  rcases h with ⟨pre, rfl⟩
  exact List.getLast?_append_of_ne_nil pre hne

/-- Every piece produced by the sentence splitter contains a non-whitespace
character, provided the whole text does not end in whitespace.  Pieces
created at a split point end with their sentence-terminal punctuation; only
the final piece needs the assumption on the text's last character. -/
theorem splitGo_pieces_nonspace (text : Str)
    (hlast : ∀ c, text.getLast? = some c → isSpaceCh c = false) :
    ∀ (chars acc : Str) (inSep : Bool),
      chars <:+ text →
      (chars = [] → ∃ c ∈ acc, isSpaceCh c = false) →
      ∀ p ∈ splitGo chars acc inSep, ∃ c ∈ p, isSpaceCh c = false := by
  intro chars
  induction chars with
  | nil =>
    intro acc inSep _ hacc p hp
    rw [splitGo] at hp
    rcases List.mem_singleton.mp hp with rfl
    rcases hacc rfl with ⟨c, hc1, hc2⟩
    exact ⟨c, List.mem_reverse.mpr hc1, hc2⟩
  | cons c rest ih =>
    intro acc inSep hsuf hacc p hp
    have hrest_suf : rest <:+ text := (List.suffix_cons c rest).trans hsuf
    rw [splitGo] at hp
    by_cases h1 : (inSep && isSpaceCh c) = true
    · rw [if_pos h1] at hp
      refine ih acc true hrest_suf ?_ p hp
      intro hrnil
      exfalso
      have hc : isSpaceCh c = true := (Bool.and_eq_true_iff.mp h1).2
      subst hrnil
      have := hlast c (by rw [getLast?_of_suffix hsuf (by simp)]; rfl)
      rw [hc] at this; simp at this
    · rw [if_neg h1] at hp
      by_cases h2 : (isSentEnd c && headIsSpace rest) = true
      · rw [if_pos h2] at hp
        rcases List.mem_cons.mp hp with rfl | hp2
        · exact ⟨c, by simp, isSentEnd_nonspace (Bool.and_eq_true_iff.mp h2).1⟩
        · refine ih [] true hrest_suf ?_ p hp2
          intro hrnil
          have := (Bool.and_eq_true_iff.mp h2).2
          subst hrnil
          simp [headIsSpace] at this
      · rw [if_neg h2] at hp
        refine ih (c :: acc) false hrest_suf ?_ p hp
        intro hrnil
        subst hrnil
        have := hlast c (by rw [getLast?_of_suffix hsuf (by simp)]; rfl)
        exact ⟨c, by simp, this⟩

/-- The accumulation loop only flushes buffers that contain a non-whitespace
character when every incoming sentence does. -/
theorem segLoop_chunks_nonspace (maxLen : Nat) :
    ∀ (sents chunks : List Str) (cur : Str),
      (∀ s ∈ sents, ∃ c ∈ s, isSpaceCh c = false) →
      (∀ ch ∈ chunks, ∃ c ∈ ch, isSpaceCh c = false) →
      (cur ≠ [] → ∃ c ∈ cur, isSpaceCh c = false) →
      ∀ ch ∈ segLoop maxLen sents chunks cur, ∃ c ∈ ch, isSpaceCh c = false := by
  intro sents
  induction sents with
  | nil =>
    intro chunks cur _ hchunks hcur ch hch
    by_cases hc : cur = []
    · rw [segLoop, if_pos hc] at hch
      exact hchunks ch hch
    · rw [segLoop, if_neg hc] at hch
      rcases List.mem_append.mp hch with h | h
      · exact hchunks ch h
      · rcases List.mem_singleton.mp h with rfl
        rcases hcur hc with ⟨c, hc1, hc2⟩
        exact ⟨c, mem_strip_of_nonspace hc2 hc1, hc2⟩
  | cons s rest ih =>
    intro chunks cur hsents hchunks hcur ch hch
    rcases hsents s (by simp) with ⟨c0, hc01, hc02⟩
    have hrest : ∀ t ∈ rest, ∃ c ∈ t, isSpaceCh c = false :=
      fun t ht => hsents t (by simp [ht])
    rw [segLoop] at hch
    by_cases hlt : cur.length + s.length < maxLen
    · rw [if_pos hlt] at hch
      refine ih _ _ hrest hchunks ?_ ch hch
      intro _
      exact ⟨c0, by simp [hc01], hc02⟩
    · rw [if_neg hlt] at hch
      refine ih _ _ hrest ?_ ?_ ch hch
      · intro ch2 hch2
        by_cases hc : cur = []
        · rw [if_pos hc] at hch2
          exact hchunks ch2 hch2
        · rw [if_neg hc] at hch2
          rcases List.mem_append.mp hch2 with h | h
          · exact hchunks ch2 h
          · rcases List.mem_singleton.mp h with rfl
            rcases hcur hc with ⟨c, hc1, hc2⟩
            exact ⟨c, mem_strip_of_nonspace hc2 hc1, hc2⟩
      · intro _
        exact ⟨c0, by simp [hc01], hc02⟩

/-! ## Helper lemmas about the built document lists and the registry -/

theorem mkDocs_length (d t : Str) (e : List (Str × Str)) :
    ∀ (i : Nat) (cs : List Str), (mkDocs d t e i cs).length = cs.length := by
  intro i cs
  induction cs generalizing i with
  | nil => rfl
  | cons c rest ih => simp [mkDocs, ih]

theorem mem_mkDocs (d t : Str) (e : List (Str × Str)) :
    ∀ (i : Nat) (cs : List Str) (x : IndexedDoc), x ∈ mkDocs d t e i cs →
      x.id = d ++ '_' :: natDigits x.chunk_index ∧ x.doc_id = d ∧
      x.title = t ∧ x.extra = e := by
  intro i cs
  induction cs generalizing i with
  | nil => intro x hx; simp [mkDocs] at hx
  | cons c rest ih =>
    intro x hx
    rcases List.mem_cons.mp hx with rfl | hx2
    · exact ⟨rfl, rfl, rfl, rfl⟩
    · exact ih (i + 1) x hx2

theorem mkDocs_map_chunk_index (d t : Str) (e : List (Str × Str)) :
    ∀ (i : Nat) (cs : List Str),
      (mkDocs d t e i cs).map IndexedDoc.chunk_index = List.range' i cs.length := by
  intro i cs
  induction cs generalizing i with
  | nil => rfl
  | cons c rest ih => simp [mkDocs, List.range'_succ, ih]

theorem mkDocs_map_id (d t : Str) (e : List (Str × Str)) :
    ∀ (i : Nat) (cs : List Str),
      (mkDocs d t e i cs).map IndexedDoc.id =
        (List.range' i cs.length).map (fun k => d ++ '_' :: natDigits k) := by
  intro i cs
  induction cs generalizing i with
  | nil => rfl
  | cons c rest ih => simp [mkDocs, List.range'_succ, ih]

theorem mkDocs_ids_nodup (d t : Str) (e : List (Str × Str)) (i : Nat)
    (cs : List Str) : ((mkDocs d t e i cs).map IndexedDoc.id).Nodup := by
  rw [mkDocs_map_id]
  refine List.Nodup.map ?_ (List.nodup_range' _ _)
  intro a b h
  have h2 := List.append_cancel_left h
  have h3 : natDigits a = natDigits b := by
    injection h2
  exact natDigits_injective h3

theorem mkDocs_filter_doc_id (d t : Str) (e : List (Str × Str)) (i : Nat)
    (cs : List Str) :
    (mkDocs d t e i cs).filter (fun x => decide (x.doc_id = d)) =
      mkDocs d t e i cs := by
  rw [List.filter_eq_self]
  intro x hx
  exact decide_eq_true (mem_mkDocs d t e i cs x hx).2.1

theorem lookup_putStore_self (s : List (Str × DocMeta)) (k : Str) (v : DocMeta) :
    lookupStore (putStore s k v) k = some v := by
  induction s with
  | nil => simp [putStore, lookupStore]
  | cons p rest ih =>
    obtain ⟨k0, v0⟩ := p
    by_cases h : k0 = k
    · simp [putStore, lookupStore, h]
    · simp [putStore, lookupStore, h, ih]

theorem searchLoop_eq_filter (store : List (Str × DocMeta)) (threshold : ℚ)
    (raw : List RawResult) :
    searchLoop store threshold raw =
      (raw.filter (fun r => decide (threshold ≤ r.score))).map
        (formatResult store) := by
  induction raw with
  | nil => rfl
  | cons r rest ih =>
    by_cases h : threshold ≤ r.score
    · simp [searchLoop, List.filter_cons, h, ih]
    · simp [searchLoop, List.filter_cons, h, ih]

/-! ## Claim theorems -/

/-- C1: an insert performed while the synchronizer is `Indexed` whose
read-back of the committed chunks fails falls back to committing only the
new chunks (the previously committed chunks are all discarded from the
index), leaves the state `Indexed`, and still returns a success response. -/
theorem insert_readback_failure_commits_only_new (hashFn : Str → Str)
    (st : ServerState) (req : DocumentRequest) (h : st.indexed = true) :
    process_text hashFn st req false true =
      (⟨putStore st.store (hashFn req.content)
          ⟨req.title, (simple_segment req.content 500).length, req.metadata⟩,
        true, docsOf hashFn req⟩,
       .ok ⟨hashFn req.content, (simple_segment req.content 500).length,
         req.title, "success".toList⟩) := by
  simp [process_text, h]

theorem insert_readback_failure_commits_only_new_witness :
    process_text idHash sampleSt sampleReq false true =
      (⟨putStore sampleSt.store (idHash sampleReq.content)
          ⟨sampleReq.title, (simple_segment sampleReq.content 500).length,
            sampleReq.metadata⟩,
        true, docsOf idHash sampleReq⟩,
       .ok ⟨idHash sampleReq.content,
         (simple_segment sampleReq.content 500).length,
         sampleReq.title, "success".toList⟩) :=
  insert_readback_failure_commits_only_new idHash sampleSt sampleReq rfl

/-- C2: a delete of a present document id performed while the synchronizer
is `Indexed` whose filtered read-back fails transitions to `NotIndexed`
without committing anything (the committed contents are untouched), and
still returns the deleted message. -/
theorem delete_readback_failure_sets_notIndexed (st : ServerState)
    (docId : Str) (commitOk : Bool) (m : DocMeta) (h1 : st.indexed = true)
    (h2 : lookupStore st.store docId = some m) :
    delete_document st docId false commitOk =
      (⟨eraseStore st.store docId, false, st.contents⟩, .deleted docId) := by
  simp [delete_document, h2, h1]

theorem delete_readback_failure_sets_notIndexed_witness :
    delete_document sampleSt "old".toList false true =
      (⟨eraseStore sampleSt.store "old".toList, false, sampleSt.contents⟩,
        .deleted "old".toList) :=
  delete_readback_failure_sets_notIndexed sampleSt "old".toList true
    sampleMeta rfl (by decide)

/-- C3: deleting an id that is absent from the registry leaves the registry,
the index contents and the indexed flag unchanged, but the handler's own
`HTTPException(404)` is swallowed by the blanket `except Exception` and
re-raised as a 500, so the caller observes a 500, not a 404. -/
theorem delete_absent_id_returns_500_unchanged :
    delete_document sampleSt "zzz".toList true true =
      (sampleSt, .err 500 "404: Document not found".toList) := by decide

/-- C6: when the synchronizer is `NotIndexed`, search returns an empty
result list, and the response does not depend on what the vector index
would have returned (the index is never consulted). -/
theorem search_not_indexed_returns_empty (st : ServerState)
    (req : SearchRequest) (raw raw2 : List RawResult)
    (h : st.indexed = false) :
    (search_endpoint st req raw).resultsOf = [] ∧
    search_endpoint st req raw = search_endpoint st req raw2 := by
  simp [search_endpoint, h, SearchResult.resultsOf]

theorem search_not_indexed_returns_empty_witness :
    (search_endpoint ⟨[], false, []⟩ ⟨"q".toList, 5, 0⟩ rawPos).resultsOf = [] ∧
    search_endpoint ⟨[], false, []⟩ ⟨"q".toList, 5, 0⟩ rawPos =
      search_endpoint ⟨[], false, []⟩ ⟨"q".toList, 5, 0⟩ rawNeg :=
  search_not_indexed_returns_empty ⟨[], false, []⟩ ⟨"q".toList, 5, 0⟩
    rawPos rawNeg rfl

/-- C10: when the index commit raises, `process_text` fails with a 500 but
the registry nevertheless already contains the new document entry (title,
chunk count, metadata), because the store is written before any index
operation is attempted: insert is not atomic with respect to the registry. -/
theorem insert_commit_failure_leaves_registry_updated (hashFn : Str → Str)
    (st : ServerState) (req : DocumentRequest) (readbackOk : Bool) :
    (process_text hashFn st req readbackOk false).2 =
      .err 500 "index commit failed".toList ∧
    lookupStore (process_text hashFn st req readbackOk false).1.store
        (hashFn req.content) =
      some ⟨req.title, (simple_segment req.content 500).length, req.metadata⟩ := by
  cases hidx : st.indexed <;> cases readbackOk <;>
    simp [process_text, hidx, lookup_putStore_self]

/-- C4: `simple_segment` coincides with the segmentation algorithm as the
spec words it (split at sentence-terminal punctuation followed by
whitespace, greedily accumulate, flush the trimmed buffer whenever appending
the next sentence would make the space-joined buffer reach or exceed
`maxLength`, flush the non-empty remainder at the end), and a single
sentence longer than `maxLength` always appears, trimmed, as its own chunk:
`maxLength` is a soft bound. -/
theorem segment_matches_spec_and_keeps_long_sentences (text : Str)
    (maxLen : Nat) :
    simple_segment text maxLen = segment_spec text maxLen ∧
    (∀ s ∈ splitSentences text, maxLen < s.length →
      strip s ∈ simple_segment text maxLen) := by
  refine ⟨simple_segment_eq_segment_spec text maxLen, ?_⟩
  intro s hs hlong
  have hne : segLoop maxLen (splitSentences text) [] [] ≠ [] :=
    segLoop_ne_nil maxLen _ [] [] (Or.inl (splitGo_ne_nil text [] false))
  have heq : simple_segment text maxLen =
      segLoop maxLen (splitSentences text) [] [] := by
    simp only [simple_segment]
    rw [if_neg hne]
  rw [heq]
  exact segLoop_mem_long_sentence maxLen _ [] [] s hs hlong

theorem segment_matches_spec_and_keeps_long_sentences_witness :
    simple_segment "aaaa. bb.".toList 3 = segment_spec "aaaa. bb.".toList 3 ∧
    strip "aaaa.".toList ∈ simple_segment "aaaa. bb.".toList 3 :=
  ⟨(segment_matches_spec_and_keeps_long_sentences "aaaa. bb.".toList 3).1,
   (segment_matches_spec_and_keeps_long_sentences "aaaa. bb.".toList 3).2
     "aaaa.".toList (by decide) (by decide)⟩

/-- C5 (amended): for every non-empty input text, `simple_segment` returns a
non-empty list of chunks; provided the text does not end in a whitespace
character, every returned chunk contains a non-whitespace character (so no
chunk is empty or whitespace-only); and when the sentence splitter yields no
usable sentences the whole input, trimmed of surrounding whitespace, is
emitted as the single chunk. -/
theorem segment_nonempty_and_nonblank_chunks (text : Str) (maxLen : Nat)
    (h1 : text ≠ []) :
    simple_segment text maxLen ≠ [] ∧
    ((∀ c, text.getLast? = some c → isSpaceCh c = false) →
      ∀ ch ∈ simple_segment text maxLen, ∃ c ∈ ch, isSpaceCh c = false) ∧
    (splitSentences text = [text] →
      simple_segment text maxLen = [strip text]) := by
  have hne : segLoop maxLen (splitSentences text) [] [] ≠ [] :=
    segLoop_ne_nil maxLen _ [] [] (Or.inl (splitGo_ne_nil text [] false))
  have heq : simple_segment text maxLen =
      segLoop maxLen (splitSentences text) [] [] := by
    simp only [simple_segment]
    rw [if_neg hne]
  refine ⟨by rw [heq]; exact hne, ?_, ?_⟩
  · intro hlast ch hch
    rw [heq] at hch
    have hpieces : ∀ p ∈ splitSentences text, ∃ c ∈ p, isSpaceCh c = false :=
      splitGo_pieces_nonspace text hlast text [] false
        (List.suffix_refl text) (fun hnil => absurd hnil h1)
    exact segLoop_chunks_nonspace maxLen _ [] [] hpieces (by simp)
      (fun hc => absurd rfl hc) ch hch
  · intro hsplit
    rw [heq, hsplit, segLoop]
    by_cases hl : ([] : Str).length + text.length < maxLen
    · rw [if_pos hl, segLoop]
      have hcur : ¬ (([] : Str) ++ text ++ [' '] = []) := by simp
      rw [if_neg hcur]
      simp [strip_append_space]
    · rw [if_neg hl]
      simp only [if_pos rfl]
      rw [segLoop]
      have hcur : ¬ (text ++ [' '] = []) := by simp
      rw [if_neg hcur]
      simp [strip_append_space]

theorem segment_nonempty_and_nonblank_chunks_witness :
    simple_segment "Hi there. Bye.".toList 10 ≠ [] ∧
    ((∀ c, "Hi there. Bye.".toList.getLast? = some c → isSpaceCh c = false) →
      ∀ ch ∈ simple_segment "Hi there. Bye.".toList 10,
        ∃ c ∈ ch, isSpaceCh c = false) ∧
    (splitSentences "Hi there. Bye.".toList = ["Hi there. Bye.".toList] →
      simple_segment "Hi there. Bye.".toList 10 =
        [strip "Hi there. Bye.".toList]) :=
  segment_nonempty_and_nonblank_chunks "Hi there. Bye.".toList 10 (by decide)

/-- C5 counterexample: the whitespace-only (but non-empty) input `" "`
produces the single chunk `""` — an empty chunk, and not the whole input. -/
theorem segment_blank_input_yields_empty_chunk :
    " ".toList ≠ [] ∧ [] ∈ simple_segment " ".toList 500 ∧
    simple_segment " ".toList 500 ≠ [" ".toList] := by decide

/-- C7 (amended): in state `Indexed`, search returns exactly the raw index
results filtered to scores `>= threshold` (inclusive), formatted, in the
index's original order; no returned result has score below the threshold;
and with `threshold = 0` every raw result with non-negative score is kept
(so all results are kept whenever the index returns no negative scores). -/
theorem search_threshold_filtering (st : ServerState) (req : SearchRequest)
    (raw : List RawResult) (h : st.indexed = true) :
    (search_endpoint st req raw).resultsOf =
      (raw.filter (fun r => decide (req.threshold ≤ r.score))).map
        (formatResult st.store) ∧
    (∀ fr ∈ (search_endpoint st req raw).resultsOf,
      req.threshold ≤ fr.score) ∧
    (req.threshold = 0 → (∀ r ∈ raw, (0 : ℚ) ≤ r.score) →
      (search_endpoint st req raw).resultsOf =
        raw.map (formatResult st.store)) := by
  have hmain : (search_endpoint st req raw).resultsOf =
      (raw.filter (fun r => decide (req.threshold ≤ r.score))).map
        (formatResult st.store) := by
    simp [search_endpoint, h, SearchResult.resultsOf, searchLoop_eq_filter]
  refine ⟨hmain, ?_, ?_⟩
  · intro fr hfr
    rw [hmain] at hfr
    rcases List.mem_map.mp hfr with ⟨r, hr, rfl⟩
    exact of_decide_eq_true (List.mem_filter.mp hr).2
  · intro h0 hpos
    rw [hmain, h0]
    have hfil : raw.filter (fun r => decide ((0 : ℚ) ≤ r.score)) = raw :=
      List.filter_eq_self.mpr (fun r hr => decide_eq_true (hpos r hr))
    rw [hfil]

theorem search_threshold_filtering_witness :
    (search_endpoint idxSt ⟨"q".toList, 5, 0⟩ rawPos).resultsOf =
      (rawPos.filter (fun r => decide ((⟨"q".toList, 5, 0⟩ :
        SearchRequest).threshold ≤ r.score))).map (formatResult idxSt.store) ∧
    (∀ fr ∈ (search_endpoint idxSt ⟨"q".toList, 5, 0⟩ rawPos).resultsOf,
      (⟨"q".toList, 5, 0⟩ : SearchRequest).threshold ≤ fr.score) ∧
    ((⟨"q".toList, 5, 0⟩ : SearchRequest).threshold = 0 →
      (∀ r ∈ rawPos, (0 : ℚ) ≤ r.score) →
      (search_endpoint idxSt ⟨"q".toList, 5, 0⟩ rawPos).resultsOf =
        rawPos.map (formatResult idxSt.store)) :=
  search_threshold_filtering idxSt ⟨"q".toList, 5, 0⟩ rawPos rfl

/-- C7 counterexample: with `threshold = 0` a raw result carrying a negative
score is dropped, so search does not keep every result the index returns. -/
theorem search_threshold_zero_drops_negative_score :
    (search_endpoint idxSt ⟨"q".toList, 5, 0⟩ rawNeg).resultsOf ≠
      rawNeg.map (formatResult idxSt.store) := by decide

/-- The new chunk set of one request consists entirely of chunks whose
`doc_id` is the request's digest, so filtering by that digest keeps all of
them. -/
theorem docsOf_filter_count (hashFn : Str → Str) (req : DocumentRequest) :
    ((docsOf hashFn req).filter
      (fun d => decide (d.doc_id = hashFn req.content))).length =
      (simple_segment req.content 500).length := by
  unfold docsOf
  rw [mkDocs_filter_doc_id, mkDocs_length]

/-- C8 (amended): after a successful insert of a document whose digest had
no chunks in the previously committed index, the registry entry holds
`chunkCount = segment(content).length`, that count equals the number of
chunks with the document's id in the newly committed generation, and the
request reports success. -/
theorem insert_chunkCount_matches_commit (hashFn : Str → Str)
    (st : ServerState) (req : DocumentRequest) (readbackOk : Bool)
    (hfresh : ∀ d ∈ st.contents, ¬ (d.doc_id = hashFn req.content)) :
    lookupStore (process_text hashFn st req readbackOk true).1.store
        (hashFn req.content) =
      some ⟨req.title, (simple_segment req.content 500).length, req.metadata⟩ ∧
    ((process_text hashFn st req readbackOk true).1.contents.filter
        (fun d => decide (d.doc_id = hashFn req.content))).length =
      (simple_segment req.content 500).length ∧
    (process_text hashFn st req readbackOk true).2 =
      .ok ⟨hashFn req.content, (simple_segment req.content 500).length,
        req.title, "success".toList⟩ := by
  have hold : (st.contents.take 10000).filter
      (fun d => decide (d.doc_id = hashFn req.content)) = [] := by
    rw [List.filter_eq_nil_iff]
    intro d hd
    simpa using hfresh d (List.mem_of_mem_take hd)
  cases hidx : st.indexed <;> cases readbackOk <;>
    simp [process_text, hidx, lookup_putStore_self, List.filter_append, hold,
      docsOf_filter_count]

theorem insert_chunkCount_matches_commit_witness :
    lookupStore (process_text idHash ⟨[], false, []⟩ sampleReq true true).1.store
        (idHash sampleReq.content) =
      some ⟨sampleReq.title, (simple_segment sampleReq.content 500).length,
        sampleReq.metadata⟩ ∧
    ((process_text idHash ⟨[], false, []⟩ sampleReq true true).1.contents.filter
        (fun d => decide (d.doc_id = idHash sampleReq.content))).length =
      (simple_segment sampleReq.content 500).length ∧
    (process_text idHash ⟨[], false, []⟩ sampleReq true true).2 =
      .ok ⟨idHash sampleReq.content,
        (simple_segment sampleReq.content 500).length,
        sampleReq.title, "success".toList⟩ :=
  insert_chunkCount_matches_commit idHash ⟨[], false, []⟩ sampleReq true
    (by simp)

/-- C8 counterexample: ingesting the same content twice leaves the registry
chunk count at 1 while the committed generation now holds 2 chunks with that
document id, so the claimed equality fails on re-ingestion. -/
theorem insert_reingest_breaks_chunkCount :
    (stAA.contents.filter
      (fun d => decide (d.doc_id = idHash "a".toList))).length ≠
    ((lookupStore stAA.store (idHash "a".toList)).map DocMeta.chunks).getD 0 := by
  decide

/-- C9 (amended): every chunk built for a request has
`id = doc_id ++ "_" ++ chunkIndex` with 0-based contiguous indices, the ids
within one insert's fresh chunk set are pairwise distinct, and on the append
path the fresh chunks are appended after the (read-back) existing committed
chunks with no deduplication — so re-ingesting already-present content
duplicates ids inside the committed generation (see the counterexample). -/
theorem chunk_ids_format_and_per_insert_unique (hashFn : Str → Str)
    (st : ServerState) (req : DocumentRequest) (h : st.indexed = true) :
    (∀ doc ∈ docsOf hashFn req,
      doc.id = hashFn req.content ++ '_' :: natDigits doc.chunk_index ∧
      doc.doc_id = hashFn req.content) ∧
    (docsOf hashFn req).map IndexedDoc.chunk_index =
      List.range (docsOf hashFn req).length ∧
    ((docsOf hashFn req).map IndexedDoc.id).Nodup ∧
    (process_text hashFn st req true true).1.contents =
      st.contents.take 10000 ++ docsOf hashFn req := by
  refine ⟨?_, ?_, ?_, ?_⟩
  · intro doc hdoc
    have hm := mem_mkDocs (hashFn req.content) req.title req.metadata 0
      (simple_segment req.content 500) doc hdoc
    exact ⟨hm.1, hm.2.1⟩
  · unfold docsOf
    rw [mkDocs_map_chunk_index, mkDocs_length, List.range_eq_range']
  · unfold docsOf
    exact mkDocs_ids_nodup _ _ _ 0 _
  · simp [process_text, h]

theorem chunk_ids_format_and_per_insert_unique_witness :
    (∀ doc ∈ docsOf idHash sampleReq,
      doc.id = idHash sampleReq.content ++ '_' :: natDigits doc.chunk_index ∧
      doc.doc_id = idHash sampleReq.content) ∧
    (docsOf idHash sampleReq).map IndexedDoc.chunk_index =
      List.range (docsOf idHash sampleReq).length ∧
    ((docsOf idHash sampleReq).map IndexedDoc.id).Nodup ∧
    (process_text idHash sampleSt sampleReq true true).1.contents =
      sampleSt.contents.take 10000 ++ docsOf idHash sampleReq :=
  chunk_ids_format_and_per_insert_unique idHash sampleSt sampleReq rfl

/-- C9 counterexample: after re-ingesting content whose hash is already
present, the committed generation contains duplicate chunk ids. -/
theorem chunk_ids_duplicate_after_reingest :
    ¬ (stAA.contents.map IndexedDoc.id).Nodup := by decide
